import Mathlib

/-!
Shallow embedding of the core of the golem integration-test orchestrator
(docker-archive/golem), covering: the custom-image matrix expander
(runner/matrix.go), the multi-resolver configuration composition
(runner/configuration.go), the base-image fingerprint computation and
image resolution (runner/runner.go), the log multi-writer
(runner/logrouter.go), the suite-runner setup/teardown control flow
(golem.go and runner/suite.go), and the nested-daemon startup poll
(runner/suite.go).

External collaborators (the engine API, the docker reference parser)
are abstracted as explicit environments, mirroring how the code
consumes them.
-/

namespace Golem

/-- Model of `reference.NamedTagged` (docker/distribution): a named
reference carrying a tag.  Only `String()` (canonical `name:tag` form)
and `Name()` are consumed by the embedded code. -/
structure NamedTagged where
  name : String
  tag : String
deriving DecidableEq, Repr

/-- `reference.NamedTagged.String()`: the canonical `name:tag` string. -/
def NamedTagged.str (r : NamedTagged) : String := r.name ++ ":" ++ r.tag

/-- `CustomImage` from runner/runner.go: source reference string,
target named-tagged reference, version token, and the default-only
marker. -/
structure CustomImage where
  source : String
  target : NamedTagged
  version : String
  defaultOnly : Bool
deriving DecidableEq, Repr

instance : Inhabited CustomImage := ⟨⟨"", ⟨"", ""⟩, "", false⟩⟩

/-- `equalCustomImage` from runner/matrix.go: compares source, target
string and version (the default-only marker is ignored). -/
def equalCustomImage (i1 i2 : CustomImage) : Bool :=
  if i1.source ≠ i2.source then false
  else if i1.target.str ≠ i2.target.str then false
  else if i1.version ≠ i2.version then false
  else true

/-- The inner duplication loop of `expandCustomImageMatrix`
(runner/matrix.go lines 15-24): row 0 (`j = 0`) is always duplicated;
every later row is duplicated exactly when its value at column `i`
equals row 0's value at column `i`; each duplicate has column `i`
replaced by the new entry and is appended at the end. -/
def dupRows (row0 : List CustomImage) (i : Nat) (img : CustomImage) :
    List (List CustomImage) → List (List CustomImage)
  | [] => []
  | r0 :: rest =>
    r0.set i img ::
      (rest.filter
        (fun row => equalCustomImage (row0.getD i default) (row.getD i default))).map
        (fun row => row.set i img)

/-- One iteration of the outer loop of `expandCustomImageMatrix`
(runner/matrix.go lines 5-35): if the matrix is empty, start with the
singleton row; if the entry's target is already a column of row 0,
append the duplicated rows; otherwise add the entry as a new column of
every row. -/
def expandStep (imageMatrix : List (List CustomImage)) (img : CustomImage) :
    List (List CustomImage) :=
  match imageMatrix with
  | [] => [[img]]
  | row0 :: _ =>
    match row0.findIdx? (fun t => t.target.str == img.target.str) with
    | some i => imageMatrix ++ dupRows row0 i img imageMatrix
    | none => imageMatrix.map (fun row => row ++ [img])

/-- `expandCustomImageMatrix` from runner/matrix.go: fold the input
entries over the step function starting from the empty matrix. -/
def expandCustomImageMatrix (images : List CustomImage) : List (List CustomImage) :=
  images.foldl expandStep []

/-- `hashVersion` constant from runner/runner.go. -/
def hashVersion : String := "1"

/-- `strings.Replace(s, old, new, -1)` for a single-character pattern
and replacement, the only shape `nameToEnv` uses: every occurrence of
the character is replaced. -/
def replaceChar (s : String) (a b : Char) : String :=
  ⟨s.data.map (fun c => if c = a then b else c)⟩

/-- `strings.ToUpper` on the ASCII names the code handles. -/
def upperString (s : String) : String :=
  ⟨s.data.map Char.toUpper⟩

/-- `nameToEnv` from runner/runner.go lines 577-582: replace dots,
dashes and colons with underscores, then uppercase. -/
def nameToEnv (name : String) : String :=
  upperString (replaceChar (replaceChar (replaceChar name '.' '_') '-' '_') ':' '_')

/-- Lexicographic less-or-equal on character lists: the order Go's
`sort.Strings` sorts by (byte-wise comparison of the UTF-8 encodings,
which agrees with character comparison on the ASCII data handled
here). -/
def lexLe : List Char → List Char → Bool
  | [], _ => true
  | _ :: _, [] => false
  | a :: as, b :: bs => if a < b then true else if b < a then false else lexLe as bs

/-- String comparison for `sort.Strings`. -/
def strLeB (a b : String) : Bool :=
  lexLe a.data b.data

/-- `sort.Strings`: sorts a string slice ascending.  Modelled with
insertion sort; any correct sort yields this unique sorted
permutation. -/
def sortStrings (l : List String) : List String :=
  List.insertionSort (fun a b => strLeB a b = true) l

instance : IsTotal String (fun a b => strLeB a b = true) where
  total := by
    intro a b
    show lexLe a.data b.data = true ∨ lexLe b.data a.data = true
    generalize a.data = as
    generalize b.data = bs
    induction as generalizing bs with
    | nil => exact Or.inl rfl
    | cons x xs ih =>
      cases bs with
      | nil => exact Or.inr rfl
      | cons y ys =>
        rcases lt_trichotomy x y with h | h | h
        · left; simp [lexLe, h]
        · subst h
          rcases ih ys with h2 | h2
          · left; simp [lexLe, h2]
          · right; simp [lexLe, h2]
        · right; simp [lexLe, h]

instance : IsTrans String (fun a b => strLeB a b = true) where
  trans := by
    intro a b c hab hbc
    show lexLe a.data c.data = true
    rw [show strLeB a b = lexLe a.data b.data from rfl] at hab
    rw [show strLeB b c = lexLe b.data c.data from rfl] at hbc
    revert hab hbc
    generalize a.data = as
    generalize b.data = bs
    generalize c.data = cs
    intro hab hbc
    induction as generalizing bs cs with
    | nil => rfl
    | cons x xs ih =>
      cases bs with
      | nil => simp [lexLe] at hab
      | cons y ys =>
        cases cs with
        | nil => simp [lexLe] at hbc
        | cons z zs =>
          rcases lt_trichotomy x y with h1 | h1 | h1
          · rcases lt_trichotomy y z with h2 | h2 | h2
            · simp [lexLe, lt_trans h1 h2]
            · subst h2; simp [lexLe, h1]
            · simp [lexLe, h2, asymm h2] at hbc
          · subst h1
            rcases lt_trichotomy x z with h2 | h2 | h2
            · simp [lexLe, h2]
            · subst h2
              simp only [lexLe, lt_irrefl, if_false] at hab hbc ⊢
              exact ih ys zs hab hbc
            · simp [lexLe, h2, asymm h2] at hbc
          · simp [lexLe, h1, asymm h1] at hab

instance : IsAntisymm String (fun a b => strLeB a b = true) where
  antisymm := by
    intro a b hab hba
    rw [show strLeB a b = lexLe a.data b.data from rfl] at hab
    rw [show strLeB b a = lexLe b.data a.data from rfl] at hba
    apply String.ext
    revert hab hba
    generalize a.data = as
    generalize b.data = bs
    intro hab hba
    induction as generalizing bs with
    | nil =>
      cases bs with
      | nil => rfl
      | cons y ys => simp [lexLe] at hba
    | cons x xs ih =>
      cases bs with
      | nil => simp [lexLe] at hab
      | cons y ys =>
        rcases lt_trichotomy x y with h | h | h
        · simp [lexLe, h, asymm h] at hba
        · subst h
          simp only [lexLe, lt_irrefl, if_false] at hab hba
          rw [ih ys hab hba]
        · simp [lexLe, h, asymm h] at hab

/-- A `(target reference string, image id)` pair: the `tag` struct of
runner/runner.go. -/
abbrev TagPair := String × String

/-- Go map lookup for `imageTags` in `BuildBaseImage`: the map is
populated in list order with later writes overriding earlier ones, so
a lookup returns the value of the last matching insertion (the empty
string for an absent key, Go's zero value). -/
def lookupLast (tags : List TagPair) (k : String) : String :=
  (((tags.reverse).find? (fun p => p.1 == k)).map Prod.snd).getD ""

/-- The exact byte string fed to the fingerprint digest in
`BuildBaseImage` (runner/runner.go lines 623-648): hash version, base
image id, the sorted `tag image-id` lines, and the sorted version
environment declarations.  Two equal input strings give equal digests,
so fingerprint equality is proved as equality of these strings. -/
def fingerprintString (baseImageID : String) (tags : List TagPair)
    (envs : List String) : String :=
  "Version: " ++ hashVersion ++ "\n\n" ++
    baseImageID ++ "\n\n" ++
    String.join ((sortStrings (tags.map Prod.fst)).map
      (fun t => t ++ " " ++ lookupLast tags t ++ "\n")) ++
    "\n" ++ "\n" ++
    String.intercalate " " (sortStrings envs) ++ "\n"

/-- Result of `ImageInspectWithRaw` as consumed by `ensureImage`:
found with an id, a not-found error, or any other failure. -/
inductive InspectResult
  | found (id : String)
  | notFound
  | failure
deriving DecidableEq, Repr

/-- Abstract engine/reference environment for `ensureImage`
(runner/runner.go): the first local inspect, the external reference
parser (`none` covers both a parse error and a reference without a
tag), whether the pull (including its progress-stream copy) succeeds,
and the post-pull local inspect. -/
structure EngineEnv where
  inspect1 : String → InspectResult
  parse : String → Option NamedTagged
  pullOk : String → Bool
  inspect2 : String → InspectResult

/-- `ensureImage` from runner/runner.go lines 386-442.  Note the
post-pull inspect: `info, _, err = cli.ImageInspectWithRaw(...); if
err != nil { return "", nil }` — the inspect failure is swallowed and
an empty id is returned with a nil error. -/
def ensureImage (env : EngineEnv) (image : String) : Except String String :=
  match env.inspect1 image with
  | .found id => .ok id
  | .failure => .error ("error inspecting image " ++ image)
  | .notFound =>
    match env.parse image with
    | none => .error ("invalid reference " ++ image)
    | some tagged =>
      if env.pullOk tagged.str then
        match env.inspect2 tagged.str with
        | .found id => .ok id
        | _ => .ok ""
      else .error ("error pulling image " ++ tagged.str)

/-- `BaseImageConfiguration` from runner/runner.go.  `Base` is a named
reference of which only `String()` is consumed, so it is carried as
the reference string. -/
structure BaseImageConfiguration where
  base : String
  extraImages : List NamedTagged
  customImages : List CustomImage

/-- The image-resolution phase of `BuildBaseImage` (runner/runner.go
lines 586-621): resolve the base image, then every extra image and
every custom-image source, accumulating `(target, source-id)` tag
pairs and the version environment declarations, one per custom
image. -/
def resolveBaseImage (env : EngineEnv) (conf : BaseImageConfiguration) :
    Except String (String × List TagPair × List String) := do
  let baseImageID ← ensureImage env conf.base
  let extraTags ← conf.extraImages.mapM (fun ref => do
    let id ← ensureImage env ref.str
    pure ((ref.str, id) : TagPair))
  let customTags ← conf.customImages.mapM (fun ci => do
    let id ← ensureImage env ci.source
    pure ((ci.target.str, id) : TagPair))
  let envs := conf.customImages.map
    (fun ci => nameToEnv ci.target.name ++ "_VERSION " ++ ci.version)
  pure (baseImageID, extraTags ++ customTags, envs)

/-- The fingerprint-input computation of `BuildBaseImage`: resolve all
images, then feed the canonicalised inputs to the digest. -/
def buildBaseImageDigestInput (env : EngineEnv) (conf : BaseImageConfiguration) :
    Except String String := do
  let (baseImageID, tags, envs) ← resolveBaseImage env conf
  pure (fingerprintString baseImageID tags envs)

/-- The `ENV` instructions written to the base-image Dockerfile
(runner/runner.go lines 643, 707-709): the `envs` slice is sorted in
place during the digest computation, and the Dockerfile loop then
writes one `ENV` line per entry. -/
def buildEnvInstructions (conf : BaseImageConfiguration) : List String :=
  (sortStrings (conf.customImages.map
    (fun ci => nameToEnv ci.target.name ++ "_VERSION " ++ ci.version))).map
    (fun e => "ENV " ++ e ++ "\n")

/-- The spec's wording for the environment-name normalisation (§4.3):
"slashes, dashes, dots, colons replaced with underscores".  Stated for
comparison with `nameToEnv`, which the code actually uses. -/
def specNameToEnv (name : String) : String :=
  upperString (replaceChar (replaceChar (replaceChar (replaceChar name '/' '_') '.' '_')
    '-' '_') ':' '_')

/-! ### Resolver stack (runner/configuration.go) -/

/-- A resolver in the stack, projected to the getters the composed
claims consume (`Dind()`, `Images()`, `CustomImages()`).  The scalar
getters (name, path, base image) and the run configuration do not
appear in any claim and are omitted. -/
structure Resolver where
  dind : Bool
  images : List NamedTagged
  customImages : List CustomImage

/-- `multiResolver.Images` (runner/configuration.go lines 413-426):
set-union across the stack, deduplicated by the canonical reference
string (a Go map keyed by `named.String()`).  Only the key set is
consumed by the claims, so the model returns the distinct key
strings. -/
def multiImages (rs : List Resolver) : List String :=
  ((rs.flatMap (fun r => r.images.map NamedTagged.str))).dedup

/-- `multiResolver.Dind` (runner/configuration.go lines 403-411):
logical OR across the stack, and additionally true when the merged
extra-image set is non-empty. -/
def multiDind (rs : List Resolver) : Bool :=
  rs.any Resolver.dind || decide (0 < (multiImages rs).length)

/-- The inner scan of `multiResolver.CustomImages`
(runner/configuration.go lines 447-460): walk the accumulated list
looking for an entry with the same target.  A default-only existing
entry is displaced by the incoming entry; an incoming default-only
entry, or one matching source and version, is deduplicated; in either
case the scan stops.  A target match that sets neither flag keeps
scanning.  `none` means the incoming entry was not absorbed and is
appended by the caller. -/
def mergeScan (ci : CustomImage) : List CustomImage → Option (List CustomImage)
  | [] => none
  | existing :: rest =>
    if ci.target.str = existing.target.str then
      if existing.defaultOnly then some (ci :: rest)
      else if ci.defaultOnly ∨ (ci.source = existing.source ∧ ci.version = existing.version) then
        some (existing :: rest)
      else (mergeScan ci rest).map (existing :: ·)
    else (mergeScan ci rest).map (existing :: ·)

/-- One entry of the merge loop of `multiResolver.CustomImages`: record
the target of a default-only entry, then absorb or append the entry. -/
def mergeOne (st : List CustomImage × List String) (ci : CustomImage) :
    List CustomImage × List String :=
  let targets := if ci.defaultOnly then st.2 ++ [ci.target.str] else st.2
  match mergeScan ci st.1 with
  | some merged => (merged, targets)
  | none => (st.1 ++ [ci], targets)

/-- `multiResolver.CustomImages` (runner/configuration.go lines
438-474): merge the custom images of every resolver in stack order,
then keep only the entries whose target was declared by some
default-only entry. -/
def multiCustomImages (rs : List Resolver) : List CustomImage :=
  let st := (rs.flatMap Resolver.customImages).foldl mergeOne ([], [])
  st.1.filter (fun ci => st.2.contains ci.target.str)

/-! ### Log multi-writer (runner/logrouter.go) -/

/-- The outcome of one `Write` call on an underlying writer: the byte
count it reports and whether it returns an error. -/
structure WriteOutcome where
  n : Nat
  err : Bool
deriving DecidableEq, Repr

/-- The error returned by `logMultiWriter.Write`: the sink's own error
or `io.ErrShortWrite`. -/
inductive MWError
  | sinkError
  | shortWrite
deriving DecidableEq, Repr

/-- An observable write event: bytes reaching the primary sink or
bytes reaching the secondary writer with the given id. -/
inductive MWEvent
  | sink (bytes : List Nat)
  | sec (id : Nat) (bytes : List Nat)
deriving DecidableEq, Repr

/-- State of a `logMultiWriter`: the bytes the primary sink has
received, the set of current secondary writers (by id), and the event
trace. -/
structure MWState where
  sinkLog : List Nat
  writers : List Nat
  events : List MWEvent

/-- `logMultiWriter.Write` (runner/logrouter.go lines 43-71).  `b` is
the byte slice; `sinkOut` is what the primary sink's `Write` returns
(a writer that reports `n` consumed the first `n` bytes); `secOut`
gives each secondary's outcome.  The primary is written first; its
error or short write is propagated with the secondaries untouched.
Otherwise every secondary is written; one that errors or short-writes
is removed from the set; the call still returns success. -/
def lmwWrite (b : List Nat) (sinkOut : WriteOutcome) (secOut : Nat → WriteOutcome)
    (st : MWState) : MWState × Nat × Option MWError :=
  let st1 : MWState :=
    { st with
      sinkLog := st.sinkLog ++ b.take sinkOut.n
      events := st.events ++ [MWEvent.sink (b.take sinkOut.n)] }
  if sinkOut.err then (st1, sinkOut.n, some MWError.sinkError)
  else if sinkOut.n ≠ b.length then (st1, sinkOut.n, some MWError.shortWrite)
  else
    let st2 : MWState :=
      { st1 with
        writers := st1.writers.filter
          (fun w => !(secOut w).err && (secOut w).n == sinkOut.n)
        events := st1.events ++
          st1.writers.map (fun w => MWEvent.sec w (b.take (secOut w).n)) }
    (st2, sinkOut.n, none)

/-! ### Suite-runner control flow (golem.go, runner/suite.go) -/

/-- The outcomes of the external steps of one suite-runner execution:
whether setup fails (a setup script exiting non-zero or any later
setup step failing), whether a test script fails, whether the
docker-in-docker flag and a compose file are present, and whether the
teardown callbacks error. -/
structure RunnerWorld where
  setupErr : Bool
  testsErr : Bool
  dind : Bool
  composeActive : Bool
  composeStopErr : Bool
  daemonShutdownErr : Bool

/-- Events observable from `runnerMain` (golem.go) and
`SuiteRunner.TearDown` (runner/suite.go). -/
inductive RunnerEvent
  | setupCall
  | runTestsCall
  | composeStop
  | daemonShutdown
deriving DecidableEq, Repr

/-- `SuiteRunner.TearDown` (runner/suite.go lines 171-191): under
dind, run compose `stop` when a compose file is active (its error only
logged), then invoke the daemon shutdown callback; the daemon error is
logged and becomes the named return value. -/
def tearDown (w : RunnerWorld) : List RunnerEvent × Bool :=
  if w.dind then
    ((if w.composeActive then [RunnerEvent.composeStop] else []) ++
      [RunnerEvent.daemonShutdown],
     w.daemonShutdownErr)
  else ([], false)

/-- The tail of `runnerMain` (golem.go lines 404-416): `Setup` error is
fatal (`logrus.Fatalf` exits with status 1 before anything else runs);
otherwise tests run, `TearDown` always follows with its error only
logged, and the exit status reflects only the test error. -/
def runnerMain (w : RunnerWorld) : List RunnerEvent × Nat :=
  if w.setupErr then ([RunnerEvent.setupCall], 1)
  else
    let td := tearDown w
    ([RunnerEvent.setupCall, RunnerEvent.runTestsCall] ++ td.1,
     if w.testsErr then 1 else 0)

/-! ### Nested-daemon startup poll (runner/suite.go `StartDaemon`) -/

/-- The retry loop of `StartDaemon` (runner/suite.go lines 261-271):
poll attempts are numbered from 0; `ok i` tells whether the engine's
version endpoint answers at attempt `i`.  On failure with `i < 10` the
loop sleeps one second and retries; at `i = 10` it declares fatal
failure.  Returns (connected, attempts made, seconds slept inside the
loop). -/
def pollFrom (ok : Nat → Bool) (i : Nat) : Bool × Nat × Nat :=
  if ok i then (true, 1, 0)
  else if 10 ≤ i then (false, 1, 0)
  else
    let r := pollFrom ok (i + 1)
    (r.1, r.2.1 + 1, r.2.2 + 1)
termination_by 11 - i
decreasing_by omega

/-- `StartDaemon`'s waiting behaviour: an unconditional two-second
sleep after launching the daemon binary, then the bounded poll loop.
Returns (connected, attempts, total seconds slept). -/
def startDaemonWait (ok : Nat → Bool) : Bool × Nat × Nat :=
  let r := pollFrom ok 0
  (r.1, r.2.1, 2 + r.2.2)

/-! ### Cross products and target groups (for the matrix laws) -/

/-- All rows obtainable by picking one element from each list, first
coordinate varying slowest. -/
def crossProduct : List (List CustomImage) → List (List CustomImage)
  | [] => [[]]
  | xs :: rest => xs.flatMap (fun x => (crossProduct rest).map (fun r => x :: r))

/-- Append an entry to the group of its target, or open a new group at
the end (first-appearance column order). -/
def addToGroups (gs : List (String × List CustomImage)) (img : CustomImage) :
    List (String × List CustomImage) :=
  match gs with
  | [] => [(img.target.str, [img])]
  | g :: rest =>
    if g.1 = img.target.str then (g.1, g.2 ++ [img]) :: rest
    else g :: addToGroups rest img

/-- Group a custom-image list by target string in order of first
appearance, keeping each target's entries in input order. -/
def groupByTarget (l : List CustomImage) : List (String × List CustomImage) :=
  l.foldl addToGroups []

/-- The row of first entries, one per target group: this is row 0 of
the expansion matrix, which the algorithm consults for column lookup
and for the duplication test. -/
def headsRow (gs : List (String × List CustomImage)) : List CustomImage :=
  gs.map (fun g => g.2.headI)

/-- Well-formedness of a group list: every group is non-empty, holds
only entries of its own target, is pairwise distinct under
`equalCustomImage`, and the targets are distinct. -/
def GroupsWF (gs : List (String × List CustomImage)) : Prop :=
  (∀ g ∈ gs, g.2 ≠ [] ∧ (∀ x ∈ g.2, x.target.str = g.1) ∧
    g.2.Pairwise (fun a b => equalCustomImage a b = false)) ∧
  (gs.map Prod.fst).Nodup

/-- The loop invariant of the matrix expansion: the matrix is a
permutation of the cross product of the target groups, and its first
row is the row of first entries.  The empty matrix corresponds to the
empty group list. -/
def MatrixInv (gs : List (String × List CustomImage))
    (m : List (List CustomImage)) : Prop :=
  (gs = [] ∧ m = []) ∨
    (gs ≠ [] ∧ m.Perm (crossProduct (gs.map Prod.snd)) ∧
      m.head? = some (headsRow gs))

/-- Convenience constructor for concrete test entries: the source
string doubles as the version so that distinct sources give entries
distinguished by `equalCustomImage`. -/
def mkCI (source : String) (targetName : String) : CustomImage :=
  ⟨source, ⟨targetName, "latest"⟩, source, false⟩

/-- Concrete engine environment for the pulled-then-uninspectable
scenario: the image is absent locally, parses as a named-tagged
reference, pulls successfully, and the post-pull inspect fails. -/
def pulledButUninspectableEnv : EngineEnv where
  inspect1 := fun _ => InspectResult.notFound
  parse := fun s =>
    if s = "busybox:latest" then some ⟨"busybox", "latest"⟩ else none
  pullOk := fun _ => true
  inspect2 := fun _ => InspectResult.failure

/-! ## Theorems -/

/-- C3: expanding the custom-image input list
(a1→A, b1→B, c1→C, b2→B, b3→B, a2→A, d1→D) yields exactly six rows
with columns in order [A, B, C, D] and in row order
(a1,b1,c1,d1), (a1,b2,c1,d1), (a1,b3,c1,d1), (a2,b1,c1,d1),
(a2,b2,c1,d1), (a2,b3,c1,d1). -/
theorem matrix_expansion_example :
    expandCustomImageMatrix
      [mkCI "a1" "A", mkCI "b1" "B", mkCI "c1" "C", mkCI "b2" "B",
       mkCI "b3" "B", mkCI "a2" "A", mkCI "d1" "D"] =
    [[mkCI "a1" "A", mkCI "b1" "B", mkCI "c1" "C", mkCI "d1" "D"],
     [mkCI "a1" "A", mkCI "b2" "B", mkCI "c1" "C", mkCI "d1" "D"],
     [mkCI "a1" "A", mkCI "b3" "B", mkCI "c1" "C", mkCI "d1" "D"],
     [mkCI "a2" "A", mkCI "b1" "B", mkCI "c1" "C", mkCI "d1" "D"],
     [mkCI "a2" "A", mkCI "b2" "B", mkCI "c1" "C", mkCI "d1" "D"],
     [mkCI "a2" "A", mkCI "b3" "B", mkCI "c1" "C", mkCI "d1" "D"]] := by
  rfl

/-- C2: a `Write(b)` that returns success delivered the full `b` to the
primary sink, contiguously and before any secondary write; a secondary
that errors or short-writes is removed from the set; and the
secondaries' outcomes affect neither the bytes delivered to the
primary nor the result of `Write`. -/
theorem multiWriter_primary_durability (b : List Nat) (sinkOut : WriteOutcome)
    (secOut secOut2 : Nat → WriteOutcome) (st : MWState)
    (h : (lmwWrite b sinkOut secOut st).2.2 = none) :
    (lmwWrite b sinkOut secOut st).1.sinkLog = st.sinkLog ++ b ∧
    (∃ rest, (lmwWrite b sinkOut secOut st).1.events =
        st.events ++ MWEvent.sink b :: rest ∧
      ∀ e ∈ rest, ∃ w bs, e = MWEvent.sec w bs) ∧
    (lmwWrite b sinkOut secOut st).1.writers =
      st.writers.filter (fun w => !(secOut w).err && (secOut w).n == b.length) ∧
    (lmwWrite b sinkOut secOut2 st).1.sinkLog =
      (lmwWrite b sinkOut secOut st).1.sinkLog ∧
    (lmwWrite b sinkOut secOut2 st).2 = (lmwWrite b sinkOut secOut st).2 := by
  by_cases herr : sinkOut.err
  · simp [lmwWrite, herr] at h
  · by_cases hn : sinkOut.n = b.length
    · refine ⟨?_, ⟨st.writers.map (fun w => MWEvent.sec w (b.take (secOut w).n)), ?_, ?_⟩,
        ?_, ?_, ?_⟩
      · simp [lmwWrite, herr, hn, List.take_of_length_le]
      · simp [lmwWrite, herr, hn, List.take_of_length_le]
      · intro e he
        simp only [List.mem_map] at he
        obtain ⟨w, _, hw⟩ := he
        exact ⟨w, b.take (secOut w).n, hw.symm⟩
      · simp [lmwWrite, herr, hn]
      · simp [lmwWrite, herr, hn]
      · simp [lmwWrite, herr, hn]
    · simp [lmwWrite, herr, hn] at h

/-- Witness for `multiWriter_primary_durability` at a concrete
successful write. -/
theorem multiWriter_primary_durability_witness :
    (lmwWrite [7, 8] ⟨2, false⟩ (fun w => ⟨w, w = 9⟩) ⟨[], [1, 2], []⟩).2.2 = none ∧
    (lmwWrite [7, 8] ⟨2, false⟩ (fun w => ⟨w, w = 9⟩) ⟨[], [1, 2], []⟩).1.sinkLog =
      [] ++ [7, 8] :=
  ⟨by decide,
   (multiWriter_primary_durability [7, 8] ⟨2, false⟩ (fun w => ⟨w, w = 9⟩)
     (fun _ => ⟨0, true⟩) ⟨[], [1, 2], []⟩ (by decide)).1⟩

/-- Helper: the poll loop never sleeps more than `n` seconds when at
most `n` retries remain. -/
theorem pollFrom_sleep_le (ok : Nat → Bool) (n : Nat) :
    ∀ i, 10 ≤ i + n → (pollFrom ok i).2.2 ≤ n := by
  induction n with
  | zero =>
    intro i hi
    unfold pollFrom
    split
    · simp
    · rw [if_pos (by omega)]
  | succ n ih =>
    intro i hi
    unfold pollFrom
    split
    · simp
    · split
      · simp
      · have := ih (i + 1) (by omega)
        simpa using Nat.add_le_add_right this 1

/-- Helper: when the engine never answers, the poll loop makes exactly
the remaining attempts and sleeps once between consecutive ones. -/
theorem pollFrom_all_fail (ok : Nat → Bool) (hok : ∀ i, ok i = false) (n : Nat) :
    ∀ i, i + n = 10 → pollFrom ok i = (false, n + 1, n) := by
  induction n with
  | zero =>
    intro i hi
    unfold pollFrom
    rw [hok i, if_neg (by simp), if_pos (by omega)]
  | succ n ih =>
    intro i hi
    unfold pollFrom
    rw [hok i, if_neg (by simp), if_neg (by omega), ih (i + 1) (by omega)]

/-- C8: nested-daemon startup polls the version endpoint with a
bounded retry (attempt 0 plus up to 10 retries at one-second
intervals, after an unconditional two-second startup sleep); it sleeps
at most 12 seconds in total, and when the engine never becomes
reachable it makes exactly 11 poll attempts, sleeps exactly 12
seconds, and declares the fatal failure. -/
theorem daemon_startup_retry_budget (ok : Nat → Bool) :
    (startDaemonWait ok).2.2 ≤ 12 ∧
    ((∀ i, ok i = false) → startDaemonWait ok = (false, 11, 12)) := by
  constructor
  · have := pollFrom_sleep_le ok 10 0 (by omega)
    simp only [startDaemonWait]
    omega
  · intro hok
    simp [startDaemonWait, pollFrom_all_fail ok hok 10 0 rfl]

/-- Witness for `daemon_startup_retry_budget` at the never-reachable
engine. -/
theorem daemon_startup_retry_budget_witness :
    ((fun _ => false : Nat → Bool) 0 = false) ∧
    startDaemonWait (fun _ => false) = (false, 11, 12) :=
  ⟨rfl, (daemon_startup_retry_budget (fun _ => false)).2 (fun _ => rfl)⟩

/-- C1 counterexample: with docker-in-docker enabled and a compose file
active, a failing setup makes `runnerMain` exit with status 1 without
invoking `TearDown` at all — neither the compose-stop nor the
daemon-shutdown callback runs, refuting "teardown is always run even
if setup failed" and "on a setup script exiting non-zero the
compose-stop and daemon-shutdown callbacks are invoked exactly
once". -/
theorem runnerMain_setup_failure_skips_teardown :
    runnerMain ⟨true, false, true, true, false, false⟩ =
      ([RunnerEvent.setupCall], 1) ∧
    (runnerMain ⟨true, false, true, true, false, false⟩).1.count
      RunnerEvent.daemonShutdown = 0 ∧
    (runnerMain ⟨true, false, true, true, false, false⟩).1.count
      RunnerEvent.composeStop = 0 := by
  decide

/-- C1 amended: when setup succeeds, teardown always runs after the
tests even if they failed — with docker-in-docker the daemon-shutdown
callback is invoked exactly once and the compose-stop callback exactly
once when a compose file is active — and the exit status reflects only
the test error, unaffected by teardown errors; when setup fails the
process exits with status 1 without running teardown. -/
theorem runnerMain_teardown_behaviour (w : RunnerWorld) :
    (w.setupErr = false →
      (runnerMain w).1.count RunnerEvent.composeStop =
        (if w.dind ∧ w.composeActive then 1 else 0) ∧
      (runnerMain w).1.count RunnerEvent.daemonShutdown =
        (if w.dind then 1 else 0) ∧
      (runnerMain w).2 = (if w.testsErr then 1 else 0)) ∧
    (w.setupErr = true →
      runnerMain w = ([RunnerEvent.setupCall], 1)) := by
  rcases w with ⟨s, t, d, c, cs, ds⟩
  cases s <;> cases t <;> cases d <;> cases c <;> cases cs <;> cases ds <;> decide

/-- Witness for `runnerMain_teardown_behaviour` at a world with failing
tests and erroring teardown callbacks. -/
theorem runnerMain_teardown_behaviour_witness :
    (runnerMain ⟨false, true, true, true, true, true⟩).1.count
        RunnerEvent.daemonShutdown = (if true then 1 else 0) ∧
    (runnerMain ⟨false, true, true, true, true, true⟩).2 =
      (if true then 1 else 0) :=
  ⟨((runnerMain_teardown_behaviour ⟨false, true, true, true, true, true⟩).1 rfl).2.1,
   ((runnerMain_teardown_behaviour ⟨false, true, true, true, true, true⟩).1 rfl).2.2⟩

/-- C5 counterexample: for a custom image whose target name contains a
slash, the emitted environment instruction keeps the slash —
`nameToEnv` replaces only dots, dashes and colons, not slashes as the
claim states. -/
theorem nameToEnv_slash_counterexample :
    buildEnvInstructions ⟨"debian:jessie", [],
        [⟨"src:1.0", ⟨"my/repo", "latest"⟩, "1.0", true⟩]⟩ =
      ["ENV MY/REPO_VERSION 1.0\n"] ∧
    nameToEnv "my/repo" = "MY/REPO" ∧
    specNameToEnv "my/repo" = "MY_REPO" ∧
    nameToEnv "my/repo" ≠ specNameToEnv "my/repo" := by
  decide

/-- C5 amended: for every custom image the base-image build emits
exactly one environment-variable instruction `ENV
<TARGET_NAME_UPPER>_VERSION <version>`, where the target name is
uppercased and every dash, dot and colon in it is replaced with an
underscore; slashes are left unchanged.  The instruction list is the
per-custom-image list up to the sort applied before writing. -/
theorem buildEnvInstructions_one_per_custom_image (conf : BaseImageConfiguration) :
    (buildEnvInstructions conf).Perm
      (conf.customImages.map
        (fun ci => "ENV " ++ (nameToEnv ci.target.name ++ "_VERSION " ++ ci.version) ++ "\n")) := by
  unfold buildEnvInstructions sortStrings
  have h := List.perm_insertionSort (fun a b : String => strLeB a b = true)
    (conf.customImages.map (fun ci => nameToEnv ci.target.name ++ "_VERSION " ++ ci.version))
  have h2 := h.map (fun e => "ENV " ++ e ++ "\n")
  simpa [List.map_map, Function.comp] using h2

/-- C7: the composed dind flag is the logical OR of the dind flags of
all resolvers in the stack, and is additionally true whenever any
resolver contributes a non-empty extra-images set. -/
theorem multiResolver_dind_law (rs : List Resolver) :
    multiDind rs = true ↔
      ((∃ r ∈ rs, r.dind = true) ∨ ∃ r ∈ rs, r.images ≠ []) := by
  unfold multiDind multiImages
  simp only [Bool.or_eq_true, List.any_eq_true, decide_eq_true_eq]
  constructor
  · rintro (⟨r, hr, hd⟩ | hlen)
    · exact Or.inl ⟨r, hr, hd⟩
    · right
      have : (rs.flatMap (fun r => r.images.map NamedTagged.str)) ≠ [] := by
        intro hnil
        rw [hnil] at hlen
        simp at hlen
      obtain ⟨x, hx⟩ := List.exists_mem_of_ne_nil _ this
      simp only [List.mem_flatMap, List.mem_map] at hx
      obtain ⟨r, hr, _, hmem, _⟩ := hx
      exact ⟨r, hr, List.ne_nil_of_mem hmem⟩
  · rintro (⟨r, hr, hd⟩ | ⟨r, hr, hne⟩)
    · exact Or.inl ⟨r, hr, hd⟩
    · right
      obtain ⟨img, himg⟩ := List.exists_mem_of_ne_nil _ hne
      have : img.str ∈ rs.flatMap (fun r => r.images.map NamedTagged.str) := by
        simp only [List.mem_flatMap, List.mem_map]
        exact ⟨r, hr, img, himg, rfl⟩
      have hmem := List.mem_dedup.2 this
      exact List.length_pos.2 (List.ne_nil_of_mem hmem)

/-- C10: an image absent locally that is successfully pulled but whose
post-pull inspect fails makes `ensureImage` return an empty id with no
error — the inspect failure is swallowed — and `BuildBaseImage`
proceeds to compute the fingerprint with the empty base-image id
instead of reporting an error. -/
theorem ensureImage_swallows_postpull_inspect_error :
    ensureImage pulledButUninspectableEnv "busybox:latest" = Except.ok "" ∧
    buildBaseImageDigestInput pulledButUninspectableEnv ⟨"busybox:latest", [], []⟩ =
      Except.ok (fingerprintString "" [] []) := by
  constructor
  · rfl
  · rfl

/-- Helper: every target string in the accumulated default-only target
set of the custom-image merge loop was already there or comes from a
default-only entry of the processed input. -/
theorem foldl_mergeOne_targets (l : List CustomImage) :
    ∀ st : List CustomImage × List String, ∀ t, t ∈ (l.foldl mergeOne st).2 →
      t ∈ st.2 ∨ ∃ d ∈ l, d.defaultOnly = true ∧ d.target.str = t := by
  induction l with
  | nil =>
    intro st t ht
    exact Or.inl ht
  | cons x xs ih =>
    intro st t ht
    rw [List.foldl_cons] at ht
    rcases ih (mergeOne st x) t ht with h | ⟨d, hd, hdef, htarg⟩
    · by_cases hdo : x.defaultOnly
      · simp only [mergeOne, hdo, if_true] at h
        have h2 : t ∈ st.2 ∨ t = x.target.str := by
          rcases hx : mergeScan x st.1 with _ | m <;> simp [hx] at h <;> exact h
        rcases h2 with h3 | h3
        · exact Or.inl h3
        · exact Or.inr ⟨x, List.mem_cons_self x xs, hdo, h3.symm⟩
      · simp only [mergeOne, hdo, if_false] at h
        have h2 : t ∈ st.2 := by
          rcases hx : mergeScan x st.1 with _ | m <;> simp [hx] at h <;> exact h
        exact Or.inl h2
    · exact Or.inr ⟨d, List.mem_cons_of_mem x hd, hdef, htarg⟩

/-- C9: every entry of the merged custom-image list has a target that
some default-only entry of some resolver in the stack declared; a
non-default custom image whose target is not declared by any
default-only entry is dropped from the result. -/
theorem multiResolver_custom_images_default_targets (rs : List Resolver)
    (ci : CustomImage) (h : ci ∈ multiCustomImages rs) :
    ∃ r ∈ rs, ∃ d ∈ r.customImages, d.defaultOnly = true ∧
      d.target.str = ci.target.str := by
  unfold multiCustomImages at h
  simp only [List.mem_filter] at h
  obtain ⟨-, hc⟩ := h
  have ht : ci.target.str ∈ ((rs.flatMap Resolver.customImages).foldl mergeOne ([], [])).2 := by
    simpa using hc
  rcases foldl_mergeOne_targets _ ([], []) _ ht with h0 | ⟨d, hd, hdef, htarg⟩
  · simp at h0
  · simp only [List.mem_flatMap] at hd
    obtain ⟨r, hr, hdr⟩ := hd
    exact ⟨r, hr, d, hdr, hdef, htarg⟩

/-- Witness for `multiResolver_custom_images_default_targets` at a
one-resolver stack whose single entry is default-only. -/
theorem multiResolver_custom_images_default_targets_witness :
    (⟨"s", ⟨"T", "1"⟩, "v", true⟩ : CustomImage) ∈
      multiCustomImages [⟨false, [], [⟨"s", ⟨"T", "1"⟩, "v", true⟩]⟩] ∧
    ∃ r ∈ [(⟨false, [], [⟨"s", ⟨"T", "1"⟩, "v", true⟩]⟩ : Resolver)],
      ∃ d ∈ r.customImages, d.defaultOnly = true ∧
        d.target.str = NamedTagged.str ⟨"T", "1"⟩ :=
  ⟨by decide,
   multiResolver_custom_images_default_targets
     [⟨false, [], [⟨"s", ⟨"T", "1"⟩, "v", true⟩]⟩]
     ⟨"s", ⟨"T", "1"⟩, "v", true⟩ (by decide)⟩

/-- Helper: when every image resolves locally to a deterministic id,
`ensureImage` returns that id. -/
theorem ensureImage_found (env : EngineEnv) (idFn : String → String)
    (henv : ∀ s, env.inspect1 s = InspectResult.found (idFn s)) (s : String) :
    ensureImage env s = Except.ok (idFn s) := by
  unfold ensureImage
  rw [henv s]

/-- Helper: `mapM` over an everywhere-successful function. -/
theorem mapM_ok {α β γ : Type} (f : α → Except γ β) (g : α → β) (l : List α)
    (h : ∀ a ∈ l, f a = Except.ok (g a)) : l.mapM f = Except.ok (l.map g) := by
  induction l with
  | nil => rfl
  | cons x xs ih =>
    rw [List.mapM_cons, h x (List.mem_cons_self x xs),
      ih (fun a ha => h a (List.mem_cons_of_mem x ha))]
    rfl

/-- Helper: the image-resolution phase under a deterministic engine. -/
theorem resolveBaseImage_found (env : EngineEnv) (idFn : String → String)
    (henv : ∀ s, env.inspect1 s = InspectResult.found (idFn s))
    (conf : BaseImageConfiguration) :
    resolveBaseImage env conf = Except.ok (idFn conf.base,
      conf.extraImages.map (fun r => (r.str, idFn r.str)) ++
        conf.customImages.map (fun ci => (ci.target.str, idFn ci.source)),
      conf.customImages.map
        (fun ci => nameToEnv ci.target.name ++ "_VERSION " ++ ci.version)) := by
  unfold resolveBaseImage
  rw [ensureImage_found env idFn henv]
  rw [mapM_ok _ (fun r : NamedTagged => (r.str, idFn r.str)) _
    (fun a _ => by rw [ensureImage_found env idFn henv]; rfl)]
  rw [mapM_ok _ (fun ci : CustomImage => (ci.target.str, idFn ci.source)) _
    (fun a _ => by rw [ensureImage_found env idFn henv]; rfl)]
  rfl

/-- Helper: sorting is invariant under permutation of the input. -/
theorem sortStrings_perm_eq {l₁ l₂ : List String} (h : l₁.Perm l₂) :
    sortStrings l₁ = sortStrings l₂ :=
  List.eq_of_perm_of_sorted
    (((List.perm_insertionSort _ l₁).trans h).trans
      (List.perm_insertionSort _ l₂).symm)
    (List.sorted_insertionSort _ l₁) (List.sorted_insertionSort _ l₂)

/-- Helper: `find?` is permutation-invariant when at most one element
can match. -/
theorem find_unique_perm {α : Type} (p : α → Bool) {l₁ l₂ : List α} (h : l₁.Perm l₂)
    (huniq : ∀ a ∈ l₁, ∀ b ∈ l₁, p a = true → p b = true → a = b) :
    l₁.find? p = l₂.find? p := by
  cases e1 : l₁.find? p with
  | none =>
    cases e2 : l₂.find? p with
    | none => rfl
    | some x =>
      have hx := List.find?_some e2
      have hmem := h.symm.subset (List.mem_of_find?_eq_some e2)
      have := List.find?_eq_none.1 e1 x hmem
      simp [hx] at this
  | some x =>
    cases e2 : l₂.find? p with
    | none =>
      have hx := List.find?_some e1
      have hmem := h.subset (List.mem_of_find?_eq_some e1)
      have := List.find?_eq_none.1 e2 x hmem
      simp [hx] at this
    | some y =>
      rw [huniq x (List.mem_of_find?_eq_some e1)
        y (h.symm.subset (List.mem_of_find?_eq_some e2))
        (List.find?_some e1) (List.find?_some e2)]

/-- Helper: in a pair list with duplicate-free keys, the key
determines the pair. -/
theorem nodup_keys_unique (L : List TagPair) (h : (L.map Prod.fst).Nodup) :
    ∀ a ∈ L, ∀ b ∈ L, a.1 = b.1 → a = b := by
  induction L with
  | nil => intro a ha; cases ha
  | cons x xs ih =>
    rw [List.map_cons, List.nodup_cons] at h
    intro a ha b hb hab
    rcases List.mem_cons.1 ha with rfl | ha2
    · rcases List.mem_cons.1 hb with rfl | hb2
      · rfl
      · exact absurd (hab ▸ List.mem_map_of_mem Prod.fst hb2) h.1
    · rcases List.mem_cons.1 hb with rfl | hb2
      · exact absurd (hab ▸ List.mem_map_of_mem Prod.fst ha2) h.1
      · exact ih h.2 a ha2 b hb2 hab

/-- Helper: the last-write-wins Go-map lookup over the
extras-then-customs tag list is invariant under permutation of each
part, provided keys determine pairs within each part. -/
theorem lookupLast_append_perm (A₁ A₂ B₁ B₂ : List TagPair)
    (hA : A₁.Perm A₂) (hB : B₁.Perm B₂)
    (hAk : ∀ a ∈ A₁, ∀ b ∈ A₁, a.1 = b.1 → a = b)
    (hBk : ∀ a ∈ B₁, ∀ b ∈ B₁, a.1 = b.1 → a = b) (k : String) :
    lookupLast (A₁ ++ B₁) k = lookupLast (A₂ ++ B₂) k := by
  unfold lookupLast
  rw [List.reverse_append, List.reverse_append, List.find?_append, List.find?_append]
  have hBrev : B₁.reverse.Perm B₂.reverse :=
    (B₁.reverse_perm).trans (hB.trans (B₂.reverse_perm).symm)
  have hArev : A₁.reverse.Perm A₂.reverse :=
    (A₁.reverse_perm).trans (hA.trans (A₂.reverse_perm).symm)
  have hBfind : B₁.reverse.find? (fun p => p.1 == k) =
      B₂.reverse.find? (fun p => p.1 == k) := by
    refine find_unique_perm _ hBrev ?_
    intro a ha b hb hpa hpb
    exact hBk a (List.mem_reverse.1 ha) b (List.mem_reverse.1 hb)
      ((beq_iff_eq.1 hpa).trans (beq_iff_eq.1 hpb).symm)
  have hAfind : A₁.reverse.find? (fun p => p.1 == k) =
      A₂.reverse.find? (fun p => p.1 == k) := by
    refine find_unique_perm _ hArev ?_
    intro a ha b hb hpa hpb
    exact hAk a (List.mem_reverse.1 ha) b (List.mem_reverse.1 hb)
      ((beq_iff_eq.1 hpa).trans (beq_iff_eq.1 hpb).symm)
  rw [hBfind, hAfind]

/-- C4: two `BaseImageConfiguration`s that differ only in the
insertion order of their extra images or of their custom images (same
base image, same (target, source-id) pairs resolved by a deterministic
engine, same version tokens, targets distinct per the data-model
invariant) produce the same fingerprint digest input, hence equal
fingerprints; with `conf₂ := conf₁` this also gives that identical
inputs always yield the same fingerprint. -/
theorem fingerprint_insertion_order_invariant
    (idFn : String → String) (env : EngineEnv)
    (henv : ∀ s, env.inspect1 s = InspectResult.found (idFn s))
    (conf1 conf2 : BaseImageConfiguration)
    (hbase : conf1.base = conf2.base)
    (hex : conf1.extraImages.Perm conf2.extraImages)
    (hci : conf1.customImages.Perm conf2.customImages)
    (hnodup : (conf1.customImages.map (fun ci => ci.target.str)).Nodup) :
    buildBaseImageDigestInput env conf1 = buildBaseImageDigestInput env conf2 := by
  unfold buildBaseImageDigestInput
  rw [resolveBaseImage_found env idFn henv, resolveBaseImage_found env idFn henv]
  have hA : (conf1.extraImages.map (fun r => ((r.str, idFn r.str) : TagPair))).Perm
      (conf2.extraImages.map (fun r => (r.str, idFn r.str))) := hex.map _
  have hB : (conf1.customImages.map
        (fun ci => ((ci.target.str, idFn ci.source) : TagPair))).Perm
      (conf2.customImages.map (fun ci => (ci.target.str, idFn ci.source))) := hci.map _
  have hAk : ∀ a ∈ conf1.extraImages.map (fun r => ((r.str, idFn r.str) : TagPair)),
      ∀ b ∈ conf1.extraImages.map (fun r => ((r.str, idFn r.str) : TagPair)),
      a.1 = b.1 → a = b := by
    intro a ha b hb hab
    simp only [List.mem_map] at ha hb
    obtain ⟨ra, _, rfl⟩ := ha
    obtain ⟨rb, _, rfl⟩ := hb
    simp only at hab
    simp [hab]
  have hBk : ∀ a ∈ conf1.customImages.map
        (fun ci => ((ci.target.str, idFn ci.source) : TagPair)),
      ∀ b ∈ conf1.customImages.map
        (fun ci => ((ci.target.str, idFn ci.source) : TagPair)),
      a.1 = b.1 → a = b := by
    refine nodup_keys_unique _ ?_
    rw [List.map_map]
    exact hnodup
  have htagkeys : ((conf1.extraImages.map (fun r => ((r.str, idFn r.str) : TagPair)) ++
        conf1.customImages.map (fun ci => (ci.target.str, idFn ci.source))).map
          Prod.fst).Perm
      ((conf2.extraImages.map (fun r => ((r.str, idFn r.str) : TagPair)) ++
        conf2.customImages.map (fun ci => (ci.target.str, idFn ci.source))).map
          Prod.fst) := (hA.append hB).map _
  have henvs : (conf1.customImages.map
        (fun ci => nameToEnv ci.target.name ++ "_VERSION " ++ ci.version)).Perm
      (conf2.customImages.map
        (fun ci => nameToEnv ci.target.name ++ "_VERSION " ++ ci.version)) := hci.map _
  have hfp : fingerprintString (idFn conf2.base)
      (conf1.extraImages.map (fun r => ((r.str, idFn r.str) : TagPair)) ++
        conf1.customImages.map (fun ci => (ci.target.str, idFn ci.source)))
      (conf1.customImages.map
        (fun ci => nameToEnv ci.target.name ++ "_VERSION " ++ ci.version)) =
    fingerprintString (idFn conf2.base)
      (conf2.extraImages.map (fun r => ((r.str, idFn r.str) : TagPair)) ++
        conf2.customImages.map (fun ci => (ci.target.str, idFn ci.source)))
      (conf2.customImages.map
        (fun ci => nameToEnv ci.target.name ++ "_VERSION " ++ ci.version)) := by
    unfold fingerprintString
    rw [sortStrings_perm_eq htagkeys, sortStrings_perm_eq henvs]
    have hmap := List.map_congr_left
      (l := sortStrings ((conf2.extraImages.map
          (fun r => ((r.str, idFn r.str) : TagPair)) ++
        conf2.customImages.map (fun ci => (ci.target.str, idFn ci.source))).map
          Prod.fst))
      (fun t _ => by
        rw [lookupLast_append_perm _ _ _ _ hA hB hAk hBk t] :
        ∀ t ∈ _, t ++ " " ++ lookupLast (conf1.extraImages.map
            (fun r => ((r.str, idFn r.str) : TagPair)) ++
          conf1.customImages.map (fun ci => (ci.target.str, idFn ci.source))) t ++ "\n" =
          t ++ " " ++ lookupLast (conf2.extraImages.map
            (fun r => ((r.str, idFn r.str) : TagPair)) ++
          conf2.customImages.map (fun ci => (ci.target.str, idFn ci.source))) t ++ "\n")
    rw [hmap]
  rw [hbase]
  exact congrArg Except.ok hfp

/-- Witness for `fingerprint_insertion_order_invariant`: two concrete
configurations with the extra images and the custom images swapped. -/
theorem fingerprint_insertion_order_invariant_witness :
    buildBaseImageDigestInput
      ⟨fun s => InspectResult.found ("id-" ++ s), fun _ => none,
        fun _ => false, fun _ => InspectResult.notFound⟩
      ⟨"base:1", [⟨"e1", "t"⟩, ⟨"e2", "t"⟩],
        [⟨"s1", ⟨"T1", "1"⟩, "v1", true⟩, ⟨"s2", ⟨"T2", "1"⟩, "v2", true⟩]⟩ =
    buildBaseImageDigestInput
      ⟨fun s => InspectResult.found ("id-" ++ s), fun _ => none,
        fun _ => false, fun _ => InspectResult.notFound⟩
      ⟨"base:1", [⟨"e2", "t"⟩, ⟨"e1", "t"⟩],
        [⟨"s2", ⟨"T2", "1"⟩, "v2", true⟩, ⟨"s1", ⟨"T1", "1"⟩, "v1", true⟩]⟩ :=
  fingerprint_insertion_order_invariant (fun s => "id-" ++ s) _
    (fun _ => rfl) _ _ rfl (by decide) (by decide) (by decide)

/-- Helper: `equalCustomImage` is reflexive. -/
theorem equalCustomImage_refl (x : CustomImage) : equalCustomImage x x = true := by
  simp [equalCustomImage]

/-- Helper: indexing an append at the length of the prefix. -/
theorem getD_append_cons {α : Type} (xs : List α) (y : α) (ys : List α) (d : α) :
    (xs ++ y :: ys).getD xs.length d = y := by
  induction xs with
  | nil => rfl
  | cons x xs ih => simpa using ih

/-- Helper: length of one cross-product block. -/
theorem crossProduct_block_length (xs : List CustomImage)
    (M : List (List CustomImage)) :
    (xs.flatMap (fun x => M.map (x :: ·))).length = xs.length * M.length := by
  induction xs with
  | nil => simp
  | cons x xs ih =>
    simp only [List.flatMap_cons, List.length_append, List.length_map, ih,
      List.length_cons]
    ring

/-- Helper: the cross product has as many rows as the product of the
group sizes. -/
theorem crossProduct_length (L : List (List CustomImage)) :
    (crossProduct L).length = (L.map List.length).prod := by
  induction L with
  | nil => rfl
  | cons xs rest ih =>
    show (xs.flatMap (fun x => (crossProduct rest).map (x :: ·))).length = _
    rw [crossProduct_block_length, ih, List.map_cons, List.prod_cons]

/-- Helper: congruence for `flatMap`. -/
theorem flatMap_congr {α β : Type} (l : List α) (f g : α → List β)
    (h : ∀ x ∈ l, f x = g x) : l.flatMap f = l.flatMap g := by
  induction l with
  | nil => rfl
  | cons x xs ih =>
    rw [List.flatMap_cons, List.flatMap_cons, h x (List.mem_cons_self x xs),
      ih (fun a ha => h a (List.mem_cons_of_mem x ha))]

/-- Helper: a `flatMap` of guarded blocks is the `flatMap` over the
filtered list. -/
theorem flatMap_ite (E : List CustomImage) (p : CustomImage → Bool)
    (f : CustomImage → List (List CustomImage)) :
    (E.flatMap fun a => if p a then f a else []) = (E.filter p).flatMap f := by
  induction E with
  | nil => rfl
  | cons e E ih =>
    rw [List.flatMap_cons, List.filter_cons]
    cases hp : p e <;> simp [hp, ih]

/-- Helper: filtering a cross-product block on coordinate zero keeps
or drops the whole block. -/
theorem filter_block (p : CustomImage → Bool) (x : CustomImage)
    (M : List (List CustomImage)) :
    (M.map (x :: ·)).filter (fun row => p (row.getD 0 default)) =
      if p x then M.map (x :: ·) else [] := by
  rw [List.filter_map]
  have hc : ((fun row => p (row.getD 0 default)) ∘ (x :: ·)) = fun _ => p x := rfl
  rw [hc]
  cases hp : p x <;> simp [hp]

/-- Helper: filtering the cross product on coordinate `A.length`
filters the group at that coordinate. -/
theorem filter_crossProduct (p : CustomImage → Bool) (A : List (List CustomImage))
    (E : List CustomImage) (B : List (List CustomImage)) :
    (crossProduct (A ++ E :: B)).filter
        (fun row => p (row.getD A.length default)) =
      crossProduct (A ++ (E.filter p) :: B) := by
  induction A with
  | nil =>
    show (crossProduct (E :: B)).filter (fun row => p (row.getD 0 default)) = _
    have h1 : crossProduct (E :: B) =
        E.flatMap (fun x => (crossProduct B).map (x :: ·)) := rfl
    rw [h1, List.filter_flatMap]
    rw [flatMap_congr _ _ _ (fun x _ => filter_block p x (crossProduct B))]
    rw [flatMap_ite]
    rfl
  | cons a A ih =>
    show (crossProduct (a :: (A ++ E :: B))).filter
        (fun row => p (row.getD (A.length + 1) default)) = _
    have h1 : crossProduct (a :: (A ++ E :: B)) =
        a.flatMap (fun x => (crossProduct (A ++ E :: B)).map (x :: ·)) := rfl
    rw [h1, List.filter_flatMap]
    have h2 : ∀ x ∈ a, ((crossProduct (A ++ E :: B)).map (x :: ·)).filter
        (fun row => p (row.getD (A.length + 1) default)) =
        ((crossProduct (A ++ (E.filter p) :: B)).map (x :: ·)) := by
      intro x _
      rw [List.filter_map]
      have hc : ((fun row => p (row.getD (A.length + 1) default)) ∘ (x :: ·)) =
          fun row => p (row.getD A.length default) := rfl
      rw [hc, ih]
    rw [flatMap_congr _ _ _ h2]
    rfl

/-- Helper: replacing coordinate `A.length` over the cross product
with a singleton group there replaces the group. -/
theorem map_set_crossProduct (A : List (List CustomImage)) (aEl img : CustomImage)
    (B : List (List CustomImage)) :
    (crossProduct (A ++ [aEl] :: B)).map (fun row => row.set A.length img) =
      crossProduct (A ++ [img] :: B) := by
  induction A with
  | nil =>
    show (crossProduct ([aEl] :: B)).map (fun row => row.set 0 img) = _
    have h1 : crossProduct ([aEl] :: B) = (crossProduct B).map (aEl :: ·) := by
      show [aEl].flatMap (fun x => (crossProduct B).map (x :: ·)) = _
      rw [List.flatMap_singleton]
    have h2 : crossProduct ([] ++ [img] :: B) = (crossProduct B).map (img :: ·) := by
      show [img].flatMap (fun x => (crossProduct B).map (x :: ·)) = _
      rw [List.flatMap_singleton]
    rw [h1, h2, List.map_map]
    rfl
  | cons xs A ih =>
    show (crossProduct (xs :: (A ++ [aEl] :: B))).map
        (fun row => row.set (A.length + 1) img) = _
    have h1 : crossProduct (xs :: (A ++ [aEl] :: B)) =
        xs.flatMap (fun x => (crossProduct (A ++ [aEl] :: B)).map (x :: ·)) := rfl
    rw [h1, List.map_flatMap]
    have h2 : ∀ x ∈ xs, ((crossProduct (A ++ [aEl] :: B)).map (x :: ·)).map
        (fun row => row.set (A.length + 1) img) =
        (crossProduct (A ++ [img] :: B)).map (x :: ·) := by
      intro x _
      rw [List.map_map]
      have hc : ((fun row => row.set (A.length + 1) img) ∘ (x :: ·)) =
          (fun r => x :: r.set A.length img) := rfl
      rw [hc, show (fun r : List CustomImage => x :: r.set A.length img) =
        ((x :: ·) ∘ (fun r : List CustomImage => r.set A.length img)) from rfl,
        ← List.map_map, ih]
    rw [flatMap_congr _ _ _ h2]
    rfl

/-- Helper: appending a singleton group appends its entry to every
row. -/
theorem crossProduct_snoc (L : List (List CustomImage)) (img : CustomImage) :
    crossProduct (L ++ [[img]]) = (crossProduct L).map (fun r => r ++ [img]) := by
  induction L with
  | nil => rfl
  | cons xs L ih =>
    show xs.flatMap (fun x => (crossProduct (L ++ [[img]])).map (x :: ·)) = _
    rw [ih]
    show _ = (xs.flatMap fun x => (crossProduct L).map (x :: ·)).map (fun r => r ++ [img])
    rw [List.map_flatMap]
    refine flatMap_congr _ _ _ (fun x _ => ?_)
    rw [List.map_map, List.map_map]
    rfl

/-- Helper: splitting a group in the middle splits the cross product up
to permutation. -/
theorem crossProduct_append_mid_perm (A : List (List CustomImage))
    (E₁ E₂ : List CustomImage) (B : List (List CustomImage)) :
    (crossProduct (A ++ (E₁ ++ E₂) :: B)).Perm
      (crossProduct (A ++ E₁ :: B) ++ crossProduct (A ++ E₂ :: B)) := by
  induction A with
  | nil =>
    show ((E₁ ++ E₂).flatMap fun x => (crossProduct B).map (x :: ·)).Perm _
    rw [List.flatMap_append]
    exact List.Perm.refl _
  | cons xs A ih =>
    show (xs.flatMap fun x => (crossProduct (A ++ (E₁ ++ E₂) :: B)).map (x :: ·)).Perm _
    have step1 : (xs.flatMap fun x =>
          (crossProduct (A ++ (E₁ ++ E₂) :: B)).map (x :: ·)).Perm
        (xs.flatMap fun x =>
          (crossProduct (A ++ E₁ :: B)).map (x :: ·) ++
          (crossProduct (A ++ E₂ :: B)).map (x :: ·)) := by
      refine List.Perm.flatMap_left xs (fun x _ => ?_)
      have := ih.map (x :: ·)
      rwa [List.map_append] at this
    refine step1.trans ?_
    exact (List.flatMap_append_perm xs _ _).symm

/-- Helper: the head of a non-empty list is a member. -/
theorem headI_mem {l : List CustomImage} (h : l ≠ []) : l.headI ∈ l := by
  cases l with
  | nil => exact absurd rfl h
  | cons x xs => exact List.mem_cons_self x xs

/-- Helper: the head of a non-empty list survives an append. -/
theorem headI_append {l l2 : List CustomImage} (h : l ≠ []) :
    (l ++ l2).headI = l.headI := by
  cases l with
  | nil => exact absurd rfl h
  | cons x xs => rfl

/-- Helper: the column scan over row 0 finds no column for an
undeclared target. -/
theorem findIdx_headsRow_none (gs : List (String × List CustomImage))
    (hwf : ∀ g ∈ gs, g.2 ≠ [] ∧ ∀ x ∈ g.2, x.target.str = g.1) (T : String)
    (hT : T ∉ gs.map Prod.fst) : ∀ i,
    (headsRow gs).findIdx? (fun t => t.target.str == T) i = none := by
  induction gs with
  | nil => intro i; rfl
  | cons g gs ih =>
    intro i
    have hkey : g.1 ≠ T := fun h => hT (by simp [h])
    have hg := hwf g (List.mem_cons_self g gs)
    have hhead : g.2.headI.target.str = g.1 := hg.2 _ (headI_mem hg.1)
    rw [headsRow, List.map_cons, List.findIdx?_cons]
    rw [if_neg (by simp [hhead, hkey])]
    exact ih (fun g2 hg2 => hwf g2 (List.mem_cons_of_mem g hg2))
      (fun h => hT (List.mem_cons_of_mem _ h)) (i + 1)

/-- Helper: the column scan over row 0 finds the column of a declared
target at the index of its group. -/
theorem findIdx_headsRow_some (pre : List (String × List CustomImage)) (T : String)
    (E : List CustomImage) (post : List (String × List CustomImage))
    (hpre : ∀ g ∈ pre, g.2 ≠ [] ∧ ∀ x ∈ g.2, x.target.str = g.1)
    (hpreT : T ∉ pre.map Prod.fst)
    (hE : E ≠ []) (hEt : ∀ x ∈ E, x.target.str = T) : ∀ i,
    (headsRow (pre ++ (T, E) :: post)).findIdx? (fun t => t.target.str == T) i =
      some (pre.length + i) := by
  induction pre with
  | nil =>
    intro i
    have hhead : E.headI.target.str = T := hEt _ (headI_mem hE)
    rw [List.nil_append, headsRow, List.map_cons, List.findIdx?_cons,
      if_pos (by simp [hhead])]
    simp
  | cons g pre ih =>
    intro i
    have hkey : g.1 ≠ T := fun h => hpreT (by simp [h])
    have hg := hpre g (List.mem_cons_self g pre)
    have hhead : g.2.headI.target.str = g.1 := hg.2 _ (headI_mem hg.1)
    rw [List.cons_append, headsRow, List.map_cons, List.findIdx?_cons]
    rw [if_neg (by simp [hhead, hkey])]
    rw [show (List.map (fun g => g.2.headI) (pre ++ (T, E) :: post)) =
      headsRow (pre ++ (T, E) :: post) from rfl]
    rw [ih (fun g2 hg2 => hpre g2 (List.mem_cons_of_mem g hg2))
        (fun h => hpreT (List.mem_cons_of_mem _ h)) (i + 1)]
    simp only [List.length_cons]
    congr 1
    omega

/-- Helper: adding an entry with a fresh target opens a new group at
the end. -/
theorem addToGroups_not_mem (gs : List (String × List CustomImage))
    (img : CustomImage) (h : img.target.str ∉ gs.map Prod.fst) :
    addToGroups gs img = gs ++ [(img.target.str, [img])] := by
  induction gs with
  | nil => rfl
  | cons g gs ih =>
    have hkey : g.1 ≠ img.target.str := fun he => h (by simp [he])
    rw [addToGroups, if_neg hkey, ih (fun hm => h (List.mem_cons_of_mem _ hm))]
    rfl

/-- Helper: adding an entry with a declared target appends it to the
first group with that target. -/
theorem addToGroups_mem_decomp (pre : List (String × List CustomImage))
    (E : List CustomImage) (post : List (String × List CustomImage))
    (img : CustomImage) (hpreT : img.target.str ∉ pre.map Prod.fst) :
    addToGroups (pre ++ (img.target.str, E) :: post) img =
      pre ++ (img.target.str, E ++ [img]) :: post := by
  induction pre with
  | nil => rw [List.nil_append, addToGroups, if_pos rfl, List.nil_append]
  | cons g pre ih =>
    have hkey : g.1 ≠ img.target.str := fun he => hpreT (by simp [he])
    rw [List.cons_append, addToGroups, if_neg hkey,
      ih (fun hm => hpreT (List.mem_cons_of_mem _ hm)), List.cons_append]

/-- Helper: a declared target splits the group list at its first
occurrence. -/
theorem mem_keys_decomp (gs : List (String × List CustomImage)) (T : String)
    (h : T ∈ gs.map Prod.fst) :
    ∃ pre E post, gs = pre ++ (T, E) :: post ∧ T ∉ pre.map Prod.fst := by
  induction gs with
  | nil => cases h
  | cons g gs ih =>
    by_cases hg : g.1 = T
    · refine ⟨[], g.2, gs, ?_, by simp⟩
      rw [List.nil_append, ← hg]
    · have h2 : T ∈ gs.map Prod.fst := by
        rcases List.mem_cons.1 h with he | hm
        · exact absurd he.symm hg
        · exact hm
      obtain ⟨pre, E, post, heq, hpre⟩ := ih h2
      refine ⟨g :: pre, E, post, by rw [heq, List.cons_append], ?_⟩
      intro hmem
      rcases List.mem_cons.1 hmem with he | hm
      · exact hg he.symm
      · exact hpre hm

/-- Helper: filtering a pairwise-distinct non-empty group by equality
with its head keeps exactly the head. -/
theorem filter_head_eq (E : List CustomImage) (hE : E ≠ [])
    (hpair : E.Pairwise (fun a b => equalCustomImage a b = false)) :
    E.filter (fun x => equalCustomImage E.headI x) = [E.headI] := by
  cases E with
  | nil => exact absurd rfl hE
  | cons e E =>
    have hhead : (e :: E).headI = e := rfl
    rw [hhead, List.filter_cons, if_pos (by simp [equalCustomImage_refl])]
    have htail : ∀ x ∈ E, equalCustomImage e x = false :=
      (List.pairwise_cons.1 hpair).1
    rw [List.filter_eq_nil_iff.2 (fun x hx => by simp [htail x hx])]

/-- Helper: the duplication loop equals a filter-then-substitute over
the whole matrix, because row 0 always passes the equality test
against itself. -/
theorem dupRows_eq_filter (row0 : List CustomImage) (i : Nat) (img : CustomImage)
    (rest : List (List CustomImage)) :
    dupRows row0 i img (row0 :: rest) =
      ((row0 :: rest).filter
        (fun row => equalCustomImage (row0.getD i default) (row.getD i default))).map
        (fun row => row.set i img) := by
  rw [dupRows, List.filter_cons, if_pos (by simp [equalCustomImage_refl]),
    List.map_cons]

/-- Helper: one expansion step preserves the matrix invariant and the
group well-formedness, provided the new entry is distinct from every
already-seen entry of its target. -/
theorem expandStep_inv (gs : List (String × List CustomImage))
    (m : List (List CustomImage)) (img : CustomImage)
    (hinv : MatrixInv gs m) (hwf : GroupsWF gs)
    (hdist : ∀ g ∈ gs, g.1 = img.target.str →
      ∀ x ∈ g.2, equalCustomImage x img = false) :
    MatrixInv (addToGroups gs img) (expandStep m img) ∧
      GroupsWF (addToGroups gs img) := by
  rcases hinv with ⟨hgs, hm⟩ | ⟨hgs, hperm, hhead⟩
  · subst hgs
    subst hm
    refine ⟨Or.inr ⟨by simp [addToGroups], List.Perm.refl _, rfl⟩, ?_, ?_⟩
    · intro g hg
      simp only [addToGroups, List.mem_singleton] at hg
      subst hg
      refine ⟨by simp, by simp, by simp⟩
    · simp [addToGroups]
  · cases m with
    | nil => simp at hhead
    | cons r0 rest =>
      have hr0 : r0 = headsRow gs := by simpa using hhead
      subst hr0
      by_cases hmem : img.target.str ∈ gs.map Prod.fst
      · obtain ⟨pre, E, post, hdecomp, hpreT⟩ := mem_keys_decomp gs _ hmem
        subst hdecomp
        have hwfmid := hwf.1 (img.target.str, E) (by simp)
        have hEne : E ≠ [] := hwfmid.1
        have hEt : ∀ x ∈ E, x.target.str = img.target.str := hwfmid.2.1
        have hEpair : E.Pairwise (fun a b => equalCustomImage a b = false) :=
          hwfmid.2.2
        have hpreWF : ∀ g ∈ pre, g.2 ≠ [] ∧ ∀ x ∈ g.2, x.target.str = g.1 :=
          fun g hg => ⟨(hwf.1 g (List.mem_append_left _ hg)).1,
            (hwf.1 g (List.mem_append_left _ hg)).2.1⟩
        have hfind : (headsRow (pre ++ (img.target.str, E) :: post)).findIdx?
            (fun t => t.target.str == img.target.str) = some pre.length := by
          have h := findIdx_headsRow_some pre img.target.str E post hpreWF hpreT
            hEne hEt 0
          simpa using h
        have hstep : expandStep
            (headsRow (pre ++ (img.target.str, E) :: post) :: rest) img =
          (headsRow (pre ++ (img.target.str, E) :: post) :: rest) ++
            dupRows (headsRow (pre ++ (img.target.str, E) :: post)) pre.length img
              (headsRow (pre ++ (img.target.str, E) :: post) :: rest) := by
          simp only [expandStep, hfind]
        have hget : (headsRow (pre ++ (img.target.str, E) :: post)).getD
            pre.length default = E.headI := by
          rw [headsRow, List.map_append, List.map_cons]
          have h := getD_append_cons (List.map (fun g => g.2.headI) pre) E.headI
            (List.map (fun g => g.2.headI) post) default
          simpa using h
        have hL : (pre ++ (img.target.str, E) :: post).map Prod.snd =
            pre.map Prod.snd ++ E :: post.map Prod.snd := by
          simp
        have hag : addToGroups (pre ++ (img.target.str, E) :: post) img =
            pre ++ (img.target.str, E ++ [img]) :: post :=
          addToGroups_mem_decomp pre E post img hpreT
        have hheads_new : headsRow (pre ++ (img.target.str, E ++ [img]) :: post) =
            headsRow (pre ++ (img.target.str, E) :: post) := by
          rw [headsRow, headsRow, List.map_append, List.map_append,
            List.map_cons, List.map_cons]
          simp only [headI_append hEne]
        have hdup : dupRows (headsRow (pre ++ (img.target.str, E) :: post))
              pre.length img
              (headsRow (pre ++ (img.target.str, E) :: post) :: rest) =
            ((headsRow (pre ++ (img.target.str, E) :: post) :: rest).filter
              (fun row => equalCustomImage E.headI (row.getD pre.length default))).map
              (fun row => row.set pre.length img) := by
          rw [dupRows_eq_filter]
          simp only [hget]
        have hfperm : (((headsRow (pre ++ (img.target.str, E) :: post) :: rest).filter
              (fun row => equalCustomImage E.headI (row.getD pre.length default))).map
              (fun row => row.set pre.length img)).Perm
            (crossProduct (pre.map Prod.snd ++ [img] :: post.map Prod.snd)) := by
          have h1 := (hperm.filter
            (fun row => equalCustomImage E.headI (row.getD pre.length default)))
          rw [hL] at h1
          have h2 : (crossProduct (pre.map Prod.snd ++ E :: post.map Prod.snd)).filter
              (fun row => equalCustomImage E.headI (row.getD pre.length default)) =
              crossProduct (pre.map Prod.snd ++
                (E.filter (fun x => equalCustomImage E.headI x)) :: post.map Prod.snd) := by
            have h3 := filter_crossProduct (fun x => equalCustomImage E.headI x)
              (pre.map Prod.snd) E (post.map Prod.snd)
            simpa using h3
          rw [h2, filter_head_eq E hEne hEpair] at h1
          have h4 := h1.map (fun row => row.set pre.length img)
          have h5 : ((crossProduct (pre.map Prod.snd ++
              [E.headI] :: post.map Prod.snd)).map
              (fun row => row.set pre.length img)) =
              crossProduct (pre.map Prod.snd ++ [img] :: post.map Prod.snd) := by
            have h6 := map_set_crossProduct (pre.map Prod.snd) E.headI img
              (post.map Prod.snd)
            simpa using h6
          rw [h5] at h4
          exact h4
        refine ⟨Or.inr ⟨by simp [hag], ?_, ?_⟩, ?_, ?_⟩
        · rw [hstep, hdup, hag, List.map_append, List.map_cons]
          have hmid := (crossProduct_append_mid_perm (pre.map Prod.snd) E [img]
            (post.map Prod.snd)).symm
          refine ((hperm.append hfperm).trans ?_)
          rw [hL] at *
          simpa using hmid
        · rw [hstep, hag]
          show some (headsRow (pre ++ (img.target.str, E) :: post)) = _
          rw [hheads_new]
        · intro g hg
          rw [hag] at hg
          rcases List.mem_append.1 hg with hgpre | hgmid
          · exact hwf.1 g (List.mem_append_left _ hgpre)
          · rcases List.mem_cons.1 hgmid with rfl | hgpost
            · refine ⟨by simp, ?_, ?_⟩
              · intro x hx
                rcases List.mem_append.1 hx with hxE | hximg
                · exact hEt x hxE
                · simp only [List.mem_singleton] at hximg
                  subst hximg
                  rfl
              · rw [List.pairwise_append]
                refine ⟨hEpair, by simp, ?_⟩
                intro a ha b hb
                simp only [List.mem_singleton] at hb
                rw [hb]
                exact hdist (img.target.str, E) (by simp) rfl a ha
            · exact hwf.1 g (List.mem_append_right _ (List.mem_cons_of_mem _ hgpost))
        · rw [hag]
          have h := hwf.2
          simpa using h
      · have hallwf : ∀ g ∈ gs, g.2 ≠ [] ∧ ∀ x ∈ g.2, x.target.str = g.1 :=
          fun g hg => ⟨(hwf.1 g hg).1, (hwf.1 g hg).2.1⟩
        have hfindnone : (headsRow gs).findIdx?
            (fun t => t.target.str == img.target.str) = none :=
          findIdx_headsRow_none gs hallwf img.target.str hmem 0
        have hstep : expandStep (headsRow gs :: rest) img =
            (headsRow gs :: rest).map (fun row => row ++ [img]) := by
          simp only [expandStep, hfindnone]
        have hag : addToGroups gs img = gs ++ [(img.target.str, [img])] :=
          addToGroups_not_mem gs img hmem
        refine ⟨Or.inr ⟨by simp [hag], ?_, ?_⟩, ?_, ?_⟩
        · rw [hstep, hag, List.map_append]
          have h1 := hperm.map (fun row => row ++ [img])
          rw [← crossProduct_snoc] at h1
          simpa using h1
        · rw [hstep, hag]
          show some (headsRow gs ++ [img]) = some (headsRow (gs ++ [(img.target.str, [img])]))
          rw [headsRow, headsRow, List.map_append]
          rfl
        · intro g hg
          rw [hag] at hg
          rcases List.mem_append.1 hg with hgold | hgnew
          · exact hwf.1 g hgold
          · simp only [List.mem_singleton] at hgnew
            subst hgnew
            exact ⟨by simp, by simp, by simp⟩
        · rw [hag, List.map_append]
          rw [List.nodup_append]
          refine ⟨hwf.2, by simp, ?_⟩
          intro a ha hb
          simp only [List.map_cons, List.map_nil, List.mem_singleton] at hb
          subst hb
          exact hmem ha

/-- Helper: an entry of a group after `addToGroups` either was already
in a group with the same target, or is the added entry. -/
theorem addToGroups_mem_inv (gs : List (String × List CustomImage))
    (img : CustomImage) (g : String × List CustomImage)
    (hg : g ∈ addToGroups gs img) (y : CustomImage) (hy : y ∈ g.2) :
    (∃ g0 ∈ gs, g0.1 = g.1 ∧ y ∈ g0.2) ∨ (y = img ∧ g.1 = img.target.str) := by
  induction gs with
  | nil =>
    simp only [addToGroups, List.mem_singleton] at hg
    subst hg
    simp only [List.mem_singleton] at hy
    exact Or.inr ⟨hy, rfl⟩
  | cons h rest ih =>
    by_cases hk : h.1 = img.target.str
    · rw [addToGroups, if_pos hk] at hg
      rcases List.mem_cons.1 hg with rfl | hgrest
      · rcases List.mem_append.1 hy with hyh | hyimg
        · exact Or.inl ⟨h, List.mem_cons_self h rest, rfl, hyh⟩
        · simp only [List.mem_singleton] at hyimg
          exact Or.inr ⟨hyimg, hk⟩
      · exact Or.inl ⟨g, List.mem_cons_of_mem h hgrest, rfl, hy⟩
    · rw [addToGroups, if_neg hk] at hg
      rcases List.mem_cons.1 hg with rfl | hgrest
      · exact Or.inl ⟨g, List.mem_cons_self g rest, rfl, hy⟩
      · rcases ih hgrest with ⟨g0, hg0, hkey, hy0⟩ | hnew
        · exact Or.inl ⟨g0, List.mem_cons_of_mem h hg0, hkey, hy0⟩
        · exact Or.inr hnew

/-- Helper: the expansion invariant holds after folding any input list
whose entries are pairwise distinct per target, starting from any
invariant-satisfying state. -/
theorem foldl_expand_inv (l : List CustomImage) :
    ∀ gs m, MatrixInv gs m → GroupsWF gs →
      (∀ img ∈ l, ∀ g ∈ gs, g.1 = img.target.str →
        ∀ x ∈ g.2, equalCustomImage x img = false) →
      l.Pairwise (fun a b => a.target.str = b.target.str →
        equalCustomImage a b = false) →
      MatrixInv (l.foldl addToGroups gs) (l.foldl expandStep m) := by
  induction l with
  | nil =>
    intro gs m hinv _ _ _
    exact hinv
  | cons x xs ih =>
    intro gs m hinv hwf hdist hpair
    rw [List.foldl_cons, List.foldl_cons]
    obtain ⟨hinv2, hwf2⟩ := expandStep_inv gs m x hinv hwf
      (fun g hg hk => hdist x (List.mem_cons_self x xs) g hg hk)
    refine ih _ _ hinv2 hwf2 ?_ (List.pairwise_cons.1 hpair).2
    intro img himg g hg hk y hy
    rcases addToGroups_mem_inv gs x g hg y hy with ⟨g0, hg0, hkey, hy0⟩ | ⟨rfl, hkey⟩
    · exact hdist img (List.mem_cons_of_mem x himg) g0 hg0 (hkey.trans hk) y hy0
    · exact (List.pairwise_cons.1 hpair).1 img himg (hkey.symm.trans hk ▸ rfl)

/-- Helper: `addToGroups` never returns the empty list. -/
theorem addToGroups_ne_nil (gs : List (String × List CustomImage))
    (img : CustomImage) : addToGroups gs img ≠ [] := by
  cases gs with
  | nil => simp [addToGroups]
  | cons g rest =>
    rw [addToGroups]
    split <;> simp

/-- Helper: folding `addToGroups` preserves non-emptiness. -/
theorem foldl_addToGroups_ne_nil (l : List CustomImage) :
    ∀ gs, gs ≠ [] → l.foldl addToGroups gs ≠ [] := by
  induction l with
  | nil => intro gs h; exact h
  | cons x xs ih =>
    intro gs _
    rw [List.foldl_cons]
    exact ih _ (addToGroups_ne_nil gs x)

/-- C6: matrix expansion is deterministic — a pure function of the
input list — and for every non-empty input list whose entries are
pairwise distinct within each target, the expansion yields exactly the
product of the per-target entry counts (the targets and their counts
given by grouping the input by target in first-appearance order). -/
theorem matrix_determinism_and_product (l : List CustomImage)
    (hpair : l.Pairwise (fun a b => a.target.str = b.target.str →
      equalCustomImage a b = false))
    (hne : l ≠ []) :
    expandCustomImageMatrix l = expandCustomImageMatrix l ∧
    (expandCustomImageMatrix l).length =
      ((groupByTarget l).map (fun g => g.2.length)).prod := by
  refine ⟨rfl, ?_⟩
  have hinv := foldl_expand_inv l [] []
    (Or.inl ⟨rfl, rfl⟩) ⟨by simp, by simp⟩ (by simp) hpair
  rcases hinv with ⟨hgs, -⟩ | ⟨-, hperm, -⟩
  · exfalso
    cases l with
    | nil => exact hne rfl
    | cons x xs =>
      rw [List.foldl_cons] at hgs
      exact foldl_addToGroups_ne_nil xs _ (addToGroups_ne_nil [] x) hgs
  · rw [show expandCustomImageMatrix l = l.foldl expandStep [] from rfl,
      hperm.length_eq, crossProduct_length,
      show groupByTarget l = l.foldl addToGroups [] from rfl, List.map_map]
    rfl

/-- Witness for `matrix_determinism_and_product` at the concrete
seven-entry input of the matrix-expansion scenario: three targets with
2, 3, 1, 1 entries give 6 rows. -/
theorem matrix_determinism_and_product_witness :
    (expandCustomImageMatrix
      [mkCI "a1" "A", mkCI "b1" "B", mkCI "c1" "C", mkCI "b2" "B",
       mkCI "b3" "B", mkCI "a2" "A", mkCI "d1" "D"]).length =
    ((groupByTarget
      [mkCI "a1" "A", mkCI "b1" "B", mkCI "c1" "C", mkCI "b2" "B",
       mkCI "b3" "B", mkCI "a2" "A", mkCI "d1" "D"]).map
        (fun g => g.2.length)).prod :=
  (matrix_determinism_and_product
    [mkCI "a1" "A", mkCI "b1" "B", mkCI "c1" "C", mkCI "b2" "B",
     mkCI "b3" "B", mkCI "a2" "A", mkCI "d1" "D"]
    (by decide) (by decide)).2

end Golem
